import Mathlib

/-!
Shallow embedding of the `const-fnv1a-hash` crate (`src/lib.rs`).

Bytes are modelled as `Nat` values (a `u8` is its zero-extended numeric
value); `u64`/`u32` arithmetic is `Nat` arithmetic reduced modulo `2 ^ 64`
respectively `2 ^ 32` wherever the source wraps. The source's `while` loop
is embedded as a fuel-structured recursion whose fuel starts at the loop
bound, so the recursion is structural and every definition evaluates.
-/

namespace Fnv1a

/-- Constant `FNV_OFFSET_BASIS_32` from src/lib.rs line 3. -/
def FNV_OFFSET_BASIS_32 : Nat := 0x811c9dc5

/-- Constant `FNV_OFFSET_BASIS_64` from src/lib.rs line 4. -/
def FNV_OFFSET_BASIS_64 : Nat := 0xcbf29ce484222325

/-- Constant `FNV_PRIME_32` from src/lib.rs line 6. -/
def FNV_PRIME_32 : Nat := 0x01000193

/-- Constant `FNV_PRIME_64` from src/lib.rs line 7. -/
def FNV_PRIME_64 : Nat := 0x00000100000001B3

/-- Constant `ASCII_CASE_MASK` from src/lib.rs line 9 (`0b0010_0000`). -/
def ASCII_CASE_MASK : Nat := 0x20

/-- The per-byte transform of the loop body (src/lib.rs lines 29-34 and
59-64): when the case flag is set and the byte ANDed with the mask equals
the mask, the byte is XORed with the mask, otherwise it is unchanged. -/
def caseValue (c : Bool) (b : Nat) : Nat :=
  if c ∧ b &&& ASCII_CASE_MASK = ASCII_CASE_MASK then b ^^^ ASCII_CASE_MASK else b

/-- The effective loop bound `len` computed from the limit
(src/lib.rs lines 17-26 and 48-57): `v` when `v <= bytes.len() && v > 0`,
otherwise the slice length. Takes the slice length as a `Nat` since the
source only inspects `bytes.len()` here. -/
def effLen (bytesLen : Nat) (limit : Option Nat) : Nat :=
  match limit with
  | some v => if v ≤ bytesLen ∧ v > 0 then v else bytesLen
  | none => bytesLen

/-- One iteration of the 64-bit loop body (src/lib.rs lines 35-36):
XOR the (transformed) byte into the accumulator, then multiply by
`FNV_PRIME_64` with wraparound modulo `2 ^ 64`. -/
def step64 (c : Bool) (hash b : Nat) : Nat :=
  ((hash ^^^ caseValue c b) * FNV_PRIME_64) % 2 ^ 64

/-- One iteration of the 32-bit loop body (src/lib.rs lines 66-67). -/
def step32 (c : Bool) (hash b : Nat) : Nat :=
  ((hash ^^^ caseValue c b) * FNV_PRIME_32) % 2 ^ 32

/-- The `while i < len` loop of `fnv1a_hash_64` (src/lib.rs lines 28-38).
`fuel` is initialised to `len` so that it is `len - i` throughout; it only
makes the recursion structural and never cuts the loop short. -/
def loop64 (bytes : List Nat) (len : Nat) (c : Bool) :
    Nat → Nat → Nat → Nat
  | 0, _, hash => hash
  | fuel + 1, i, hash =>
    if i < len then loop64 bytes len c fuel (i + 1) (step64 c hash (bytes.getD i 0))
    else hash

/-- The `while i < len` loop of `fnv1a_hash_32` (src/lib.rs lines 59-69). -/
def loop32 (bytes : List Nat) (len : Nat) (c : Bool) :
    Nat → Nat → Nat → Nat
  | 0, _, hash => hash
  | fuel + 1, i, hash =>
    if i < len then loop32 bytes len c fuel (i + 1) (step32 c hash (bytes.getD i 0))
    else hash

/-- Function `fnv1a_hash_64` (src/lib.rs lines 13-40). -/
def fnv1a_hash_64 (bytes : List Nat) (limit : Option Nat) (c : Bool) : Nat :=
  loop64 bytes (effLen bytes.length limit) c (effLen bytes.length limit) 0
    FNV_OFFSET_BASIS_64

/-- Function `fnv1a_hash_32` (src/lib.rs lines 44-71). -/
def fnv1a_hash_32 (bytes : List Nat) (limit : Option Nat) (c : Bool) : Nat :=
  loop32 bytes (effLen bytes.length limit) c (effLen bytes.length limit) 0
    FNV_OFFSET_BASIS_32

/-- Rust `u32::to_ne_bytes` (src/lib.rs line 79), parameterised by the host's
native byte order: `le = true` is little-endian, `le = false` big-endian. -/
def to_ne_bytes32 (le : Bool) (h : Nat) : List Nat :=
  if le then [h % 2 ^ 8, h / 2 ^ 8 % 2 ^ 8, h / 2 ^ 16 % 2 ^ 8, h / 2 ^ 24 % 2 ^ 8]
  else [h / 2 ^ 24 % 2 ^ 8, h / 2 ^ 16 % 2 ^ 8, h / 2 ^ 8 % 2 ^ 8, h % 2 ^ 8]

/-- Rust `u16::from_ne_bytes` (src/lib.rs lines 80-81), parameterised by the
host's native byte order. -/
def from_ne_bytes16 (le : Bool) (b0 b1 : Nat) : Nat :=
  if le then b0 + 2 ^ 8 * b1 else 2 ^ 8 * b0 + b1

/-- Function `fnv1a_hash_16_xor` (src/lib.rs lines 78-83), parameterised by the
host's native byte order `le`. -/
def fnv1a_hash_16_xor (le : Bool) (bytes : List Nat) (limit : Option Nat) : Nat :=
  let bs := to_ne_bytes32 le (fnv1a_hash_32 bytes limit false)
  let upper := from_ne_bytes16 le (bs.getD 0 0) (bs.getD 1 0)
  let lower := from_ne_bytes16 le (bs.getD 2 0) (bs.getD 3 0)
  upper ^^^ lower

/-- The UTF-8 bytes of a string, as `Nat` values (`str::as_bytes`). -/
def strBytes (s : String) : List Nat := s.toUTF8.toList.map (fun b => b.toNat)

/-- Function `fnv1a_hash_str_64` (src/lib.rs lines 87-89). -/
def fnv1a_hash_str_64 (input : String) : Nat :=
  fnv1a_hash_64 (strBytes input) none false

/-- Function `fnv1a_hash_str_32` (src/lib.rs lines 93-95). -/
def fnv1a_hash_str_32 (input : String) : Nat :=
  fnv1a_hash_32 (strBytes input) none false

/-- Function `fnv1a_hash_str_16_xor` (src/lib.rs lines 99-101), parameterised by
the host's native byte order `le`. -/
def fnv1a_hash_str_16_xor (le : Bool) (input : String) : Nat :=
  fnv1a_hash_16_xor le (strBytes input) none

/-! ### Reference definitions written from the spec's words (for C1) -/

/-- Reference effective length, following the spec's words: the limit when
`0 < limit ≤ input.length`, else the input length. -/
def specEffLen (bytes : List Nat) (limit : Option Nat) : Nat :=
  match limit with
  | some v => if 0 < v ∧ v ≤ bytes.length then v else bytes.length
  | none => bytes.length

/-- Reference 64-bit fold, following the spec's words: start at the offset
basis; for each byte of the effective-length prefix in order, conditionally
toggle bit 5, XOR the byte in, multiply by the prime modulo `2 ^ 64`. -/
def specRef64 (bytes : List Nat) (limit : Option Nat) (c : Bool) : Nat :=
  (bytes.take (specEffLen bytes limit)).foldl
    (fun acc b =>
      ((acc ^^^ (if c ∧ b &&& 0x20 = 0x20 then b ^^^ 0x20 else b)) *
        0x00000100000001B3) % 2 ^ 64)
    0xcbf29ce484222325

/-- Reference 32-bit fold, following the spec's words. -/
def specRef32 (bytes : List Nat) (limit : Option Nat) (c : Bool) : Nat :=
  (bytes.take (specEffLen bytes limit)).foldl
    (fun acc b =>
      ((acc ^^^ (if c ∧ b &&& 0x20 = 0x20 then b ^^^ 0x20 else b)) *
        0x01000193) % 2 ^ 32)
    0x811c9dc5

/-- ASCII lowercase conversion of a byte, as in the spec's case-fold
equivalence property (`to_ascii_lowercase`): uppercase letters have bit 5
set, all other bytes are unchanged. -/
def to_ascii_lowercase (b : Nat) : Nat :=
  if 0x41 ≤ b ∧ b ≤ 0x5A then b ||| 0x20 else b

/-- A byte is an ASCII letter: in `0x41`–`0x5A` or `0x61`–`0x7A`. -/
def isAsciiLetter (b : Nat) : Prop :=
  (0x41 ≤ b ∧ b ≤ 0x5A) ∨ (0x61 ≤ b ∧ b ≤ 0x7A)

instance (b : Nat) : Decidable (isAsciiLetter b) := by
  unfold isAsciiLetter; infer_instance

/-! ### Basic lemmas -/

lemma effLen_le (n : Nat) (limit : Option Nat) : effLen n limit ≤ n := by
  cases limit with
  | none => exact Nat.le_refl n
  | some v =>
    simp only [effLen]
    split
    · omega
    · exact Nat.le_refl n

lemma effLen_none (n : Nat) : effLen n none = n := rfl

lemma effLen_zero (n : Nat) : effLen n (some 0) = n := by
  simp [effLen]

lemma effLen_of_gt (n l : Nat) (h : n < l) : effLen n (some l) = n := by
  simp only [effLen]
  rw [if_neg]
  omega

/-- The fuel-structured loop computes the left fold of `step64` over the
prefix of the first `len` bytes, provided the fuel covers the remaining
iterations and `len` is within the slice. -/
lemma loop64_eq_foldl (bytes : List Nat) (len : Nat) (c : Bool)
    (hlen : len ≤ bytes.length) :
    ∀ fuel i hash, len ≤ i + fuel →
      loop64 bytes len c fuel i hash =
        ((bytes.take len).drop i).foldl (step64 c) hash := by
  intro fuel
  induction fuel with
  | zero =>
    intro i hash hfi
    have hdrop : ((bytes.take len).drop i) = [] := by
      apply List.drop_eq_nil_of_le
      simp only [List.length_take]
      omega
    rw [hdrop]
    rfl
  | succ n ih =>
    intro i hash hfi
    by_cases h : i < len
    · have hi : i < (bytes.take len).length := by
        simp only [List.length_take]
        omega
      have hib : i < bytes.length := by omega
      have hdrop : (bytes.take len).drop i =
          (bytes.take len).get ⟨i, hi⟩ :: (bytes.take len).drop (i + 1) :=
        List.drop_eq_getElem_cons hi
      have hget : (bytes.take len).get ⟨i, hi⟩ = bytes.getD i 0 := by
        rw [List.getD_eq_getElem bytes 0 hib]
        simp [List.getElem_take]
      rw [loop64, if_pos h, ih (i + 1) _ (by omega), hdrop, hget]
      rfl
    · have hdrop : ((bytes.take len).drop i) = [] := by
        apply List.drop_eq_nil_of_le
        simp only [List.length_take]
        omega
      rw [loop64, if_neg h, hdrop]
      rfl

/-- 32-bit analogue of `loop64_eq_foldl`. -/
lemma loop32_eq_foldl (bytes : List Nat) (len : Nat) (c : Bool)
    (hlen : len ≤ bytes.length) :
    ∀ fuel i hash, len ≤ i + fuel →
      loop32 bytes len c fuel i hash =
        ((bytes.take len).drop i).foldl (step32 c) hash := by
  intro fuel
  induction fuel with
  | zero =>
    intro i hash hfi
    have hdrop : ((bytes.take len).drop i) = [] := by
      apply List.drop_eq_nil_of_le
      simp only [List.length_take]
      omega
    rw [hdrop]
    rfl
  | succ n ih =>
    intro i hash hfi
    by_cases h : i < len
    · have hi : i < (bytes.take len).length := by
        simp only [List.length_take]
        omega
      have hib : i < bytes.length := by omega
      have hdrop : (bytes.take len).drop i =
          (bytes.take len).get ⟨i, hi⟩ :: (bytes.take len).drop (i + 1) :=
        List.drop_eq_getElem_cons hi
      have hget : (bytes.take len).get ⟨i, hi⟩ = bytes.getD i 0 := by
        rw [List.getD_eq_getElem bytes 0 hib]
        simp [List.getElem_take]
      rw [loop32, if_pos h, ih (i + 1) _ (by omega), hdrop, hget]
      rfl
    · have hdrop : ((bytes.take len).drop i) = [] := by
        apply List.drop_eq_nil_of_le
        simp only [List.length_take]
        omega
      rw [loop32, if_neg h, hdrop]
      rfl

/-- Function `fnv1a_hash_64` is the left fold of the step function over the
effective-length prefix. -/
lemma hash64_eq_fold (bytes : List Nat) (limit : Option Nat) (c : Bool) :
    fnv1a_hash_64 bytes limit c =
      (bytes.take (effLen bytes.length limit)).foldl (step64 c)
        FNV_OFFSET_BASIS_64 := by
  unfold fnv1a_hash_64
  rw [loop64_eq_foldl bytes _ c (effLen_le _ _) _ 0 _ (by omega)]
  rfl

/-- Function `fnv1a_hash_32` is the left fold of the step function over the
effective-length prefix. -/
lemma hash32_eq_fold (bytes : List Nat) (limit : Option Nat) (c : Bool) :
    fnv1a_hash_32 bytes limit c =
      (bytes.take (effLen bytes.length limit)).foldl (step32 c)
        FNV_OFFSET_BASIS_32 := by
  unfold fnv1a_hash_32
  rw [loop32_eq_foldl bytes _ c (effLen_le _ _) _ 0 _ (by omega)]
  rfl

/-- The hash functions depend on the limit only through the effective
length. -/
lemma hash64_congr_limit (bytes : List Nat) (l1 l2 : Option Nat) (c : Bool)
    (h : effLen bytes.length l1 = effLen bytes.length l2) :
    fnv1a_hash_64 bytes l1 c = fnv1a_hash_64 bytes l2 c := by
  unfold fnv1a_hash_64
  rw [h]

lemma hash32_congr_limit (bytes : List Nat) (l1 l2 : Option Nat) (c : Bool)
    (h : effLen bytes.length l1 = effLen bytes.length l2) :
    fnv1a_hash_32 bytes l1 c = fnv1a_hash_32 bytes l2 c := by
  unfold fnv1a_hash_32
  rw [h]

lemma hash16_congr_limit (le : Bool) (bytes : List Nat) (l1 l2 : Option Nat)
    (h : effLen bytes.length l1 = effLen bytes.length l2) :
    fnv1a_hash_16_xor le bytes l1 = fnv1a_hash_16_xor le bytes l2 := by
  unfold fnv1a_hash_16_xor
  rw [hash32_congr_limit bytes l1 l2 false h]

lemma caseValue_false (b : Nat) : caseValue false b = b := by
  simp [caseValue]

lemma step64_false_caseValue (h b : Nat) :
    step64 false h (caseValue true b) = step64 true h b := by
  simp [step64, caseValue_false]

lemma step32_false_caseValue (h b : Nat) :
    step32 false h (caseValue true b) = step32 true h b := by
  simp [step32, caseValue_false]

/-- Left folds agree when the folded functions agree on all list members. -/
lemma foldl_ext_mem {α β : Type} (f g : β → α → β) :
    ∀ (l : List α), (∀ x ∈ l, ∀ a, f a x = g a x) →
      ∀ a, l.foldl f a = l.foldl g a := by
  intro l
  induction l with
  | nil => intro _ a; rfl
  | cons x xs ih =>
    intro h a
    simp only [List.foldl_cons]
    rw [h x (List.mem_cons_self x xs) a]
    exact ih (fun y hy a2 => h y (List.mem_cons_of_mem x hy) a2) _

/-- On ASCII letters, lowercasing first does not change the byte actually
folded in when the case flag is set. -/
lemma caseValue_lower (b : Nat) (h : isAsciiLetter b) :
    caseValue true (to_ascii_lowercase b) = caseValue true b := by
  rcases h with ⟨h1, h2⟩ | ⟨h1, h2⟩ <;> interval_cases b <;> decide

/-- The 32-bit accumulator stays below `2 ^ 32` through the fold. -/
lemma foldl_step32_lt (c : Bool) (l : List Nat) :
    ∀ a, a < 2 ^ 32 → l.foldl (step32 c) a < 2 ^ 32 := by
  induction l with
  | nil => intro a ha; exact ha
  | cons x xs ih =>
    intro a ha
    exact ih _ (Nat.mod_lt _ (by norm_num))

/-- `fnv1a_hash_32` returns a value below `2 ^ 32`. -/
lemma hash32_lt (bytes : List Nat) (limit : Option Nat) (c : Bool) :
    fnv1a_hash_32 bytes limit c < 2 ^ 32 := by
  rw [hash32_eq_fold]
  exact foldl_step32_lt c _ _ (by norm_num [FNV_OFFSET_BASIS_32])

/-- Core of the XOR fold: for any 32-bit value, recombining its
native-order byte pairs and XORing gives high half XOR low half,
whatever the byte order, because XOR is commutative. -/
lemma xor16_core (h : Nat) (hlt : h < 2 ^ 32) (le : Bool) :
    from_ne_bytes16 le ((to_ne_bytes32 le h).getD 0 0)
        ((to_ne_bytes32 le h).getD 1 0) ^^^
      from_ne_bytes16 le ((to_ne_bytes32 le h).getD 2 0)
        ((to_ne_bytes32 le h).getD 3 0) =
      h / 2 ^ 16 ^^^ h % 2 ^ 16 := by
  cases le with
  | false =>
    show (2 ^ 8 * (h / 2 ^ 24 % 2 ^ 8) + h / 2 ^ 16 % 2 ^ 8) ^^^
        (2 ^ 8 * (h / 2 ^ 8 % 2 ^ 8) + h % 2 ^ 8) = _
    have h1 : 2 ^ 8 * (h / 2 ^ 24 % 2 ^ 8) + h / 2 ^ 16 % 2 ^ 8 = h / 2 ^ 16 := by
      omega
    have h2 : 2 ^ 8 * (h / 2 ^ 8 % 2 ^ 8) + h % 2 ^ 8 = h % 2 ^ 16 := by
      omega
    rw [h1, h2]
  | true =>
    show (h % 2 ^ 8 + 2 ^ 8 * (h / 2 ^ 8 % 2 ^ 8)) ^^^
        (h / 2 ^ 16 % 2 ^ 8 + 2 ^ 8 * (h / 2 ^ 24 % 2 ^ 8)) = _
    have h1 : h % 2 ^ 8 + 2 ^ 8 * (h / 2 ^ 8 % 2 ^ 8) = h % 2 ^ 16 := by
      omega
    have h2 : h / 2 ^ 16 % 2 ^ 8 + 2 ^ 8 * (h / 2 ^ 24 % 2 ^ 8) = h / 2 ^ 16 := by
      omega
    rw [h1, h2, Nat.xor_comm]

/-- Whatever the native byte order, the 16-bit XOR fold equals the XOR of
the high and low 16-bit halves of the 32-bit hash. -/
lemma xor16_eq (le : Bool) (bytes : List Nat) (limit : Option Nat) :
    fnv1a_hash_16_xor le bytes limit =
      fnv1a_hash_32 bytes limit false / 2 ^ 16 ^^^
        fnv1a_hash_32 bytes limit false % 2 ^ 16 :=
  xor16_core (fnv1a_hash_32 bytes limit false) (hash32_lt bytes limit false) le

/-! ### Claims -/

/-- C1: `fnv1a_hash_64` and `fnv1a_hash_32` equal the reference fold
written from the spec's words: start at the offset basis, then for each
byte of the effective-length prefix in order conditionally toggle bit 5,
XOR the byte in, and multiply by the FNV prime modulo the width. -/
theorem spec_c1 (bytes : List Nat) (limit : Option Nat) (c : Bool) :
    fnv1a_hash_64 bytes limit c = specRef64 bytes limit c ∧
    fnv1a_hash_32 bytes limit c = specRef32 bytes limit c := by
  have heff : specEffLen bytes limit = effLen bytes.length limit := by
    cases limit with
    | none => rfl
    | some v =>
      simp only [specEffLen, effLen]
      by_cases hv : 0 < v ∧ v ≤ bytes.length
      · rw [if_pos hv, if_pos ⟨hv.2, hv.1⟩]
      · rw [if_neg hv, if_neg (fun hc => hv ⟨hc.2, hc.1⟩)]
  constructor
  · rw [hash64_eq_fold, ← heff]
    rfl
  · rw [hash32_eq_fold, ← heff]
    rfl

/-- C3: a limit of zero, or a limit exceeding the input length, behaves
exactly like no limit, for all three byte-level hash functions. -/
theorem spec_c3 (bytes : List Nat) (c : Bool) (le : Bool) (l : Nat)
    (hl : bytes.length < l) :
    (fnv1a_hash_64 bytes (some 0) c = fnv1a_hash_64 bytes none c ∧
     fnv1a_hash_32 bytes (some 0) c = fnv1a_hash_32 bytes none c ∧
     fnv1a_hash_16_xor le bytes (some 0) = fnv1a_hash_16_xor le bytes none) ∧
    (fnv1a_hash_64 bytes (some l) c = fnv1a_hash_64 bytes none c ∧
     fnv1a_hash_32 bytes (some l) c = fnv1a_hash_32 bytes none c ∧
     fnv1a_hash_16_xor le bytes (some l) = fnv1a_hash_16_xor le bytes none) := by
  have h0 : effLen bytes.length (some 0) = effLen bytes.length none :=
    effLen_zero bytes.length
  have hg : effLen bytes.length (some l) = effLen bytes.length none :=
    effLen_of_gt bytes.length l hl
  exact ⟨⟨hash64_congr_limit bytes _ _ c h0, hash32_congr_limit bytes _ _ c h0,
      hash16_congr_limit le bytes _ _ h0⟩,
    ⟨hash64_congr_limit bytes _ _ c hg, hash32_congr_limit bytes _ _ c hg,
      hash16_congr_limit le bytes _ _ hg⟩⟩

/-- Witness for C3 at concrete inputs. -/
theorem spec_c3_witness :
    fnv1a_hash_64 [1, 2] (some 0) false = fnv1a_hash_64 [1, 2] none false ∧
    fnv1a_hash_16_xor true [1, 2] (some 5) = fnv1a_hash_16_xor true [1, 2] none :=
  ⟨(spec_c3 [1, 2] false true 5 (by decide)).1.1,
   (spec_c3 [1, 2] false true 5 (by decide)).2.2.2⟩

/-- C4: a limit `k` with `0 < k < len` hashes exactly the first `k` bytes,
for both widths. -/
theorem spec_c4 (bytes : List Nat) (c : Bool) (k : Nat) (h0 : 0 < k)
    (hk : k < bytes.length) :
    fnv1a_hash_64 bytes (some k) c = fnv1a_hash_64 (bytes.take k) none c ∧
    fnv1a_hash_32 bytes (some k) c = fnv1a_hash_32 (bytes.take k) none c := by
  have h1 : effLen bytes.length (some k) = k := by
    simp only [effLen]
    rw [if_pos ⟨by omega, h0⟩]
  have h2 : effLen (bytes.take k).length none = k := by
    simp only [effLen_none, List.length_take]
    omega
  constructor
  · rw [hash64_eq_fold, hash64_eq_fold, h1, h2, List.take_take, Nat.min_self]
  · rw [hash32_eq_fold, hash32_eq_fold, h1, h2, List.take_take, Nat.min_self]

/-- Witness for C4 at concrete inputs. -/
theorem spec_c4_witness :
    fnv1a_hash_64 [1, 2, 3] (some 2) false = fnv1a_hash_64 [1, 2] none false ∧
    fnv1a_hash_32 [1, 2, 3] (some 2) false = fnv1a_hash_32 [1, 2] none false :=
  spec_c4 [1, 2, 3] false 2 (by decide) (by decide)

/-- C8: the hash of the empty byte sequence is exactly the offset basis,
for every limit and case flag, at both widths. -/
theorem spec_c8 (limit : Option Nat) (c : Bool) :
    fnv1a_hash_64 [] limit c = 0xcbf29ce484222325 ∧
    fnv1a_hash_32 [] limit c = 0x811c9dc5 := by
  have h : effLen ([] : List Nat).length limit = 0 := by
    cases limit with
    | none => rfl
    | some v =>
      simp only [effLen, List.length_nil]
      rw [if_neg (by omega)]
  constructor
  · unfold fnv1a_hash_64
    rw [h]
    rfl
  · unfold fnv1a_hash_32
    rw [h]
    rfl

/-- C2 counterexample: the claim says bytes with bit 5 already set are
folded unchanged (and the toggle is applied exactly to bytes with bit 5
clear). The code does the opposite: at input `[0x61]` (bit 5 set) the
case flag changes the hash, while at `[0x41]` (bit 5 clear) it does not. -/
theorem spec_c2_cex :
    fnv1a_hash_64 [0x61] none true ≠ fnv1a_hash_64 [0x61] none false ∧
    fnv1a_hash_64 [0x41] none true = fnv1a_hash_64 [0x41] none false := by
  constructor
  · decide
  · decide

/-- C2 amended: when the case flag is true the bit-5 toggle is applied
exactly to those bytes whose bit `0b0010_0000` is SET (normalising ASCII
lowercase to uppercase); bytes with bit 5 clear are folded unchanged.
Quantified over every byte sequence and limit: hashing with the flag
equals hashing the pointwise-transformed sequence with the flag off. -/
theorem spec_c2_amended (bytes : List Nat) (limit : Option Nat) :
    (fnv1a_hash_64 bytes limit true =
        fnv1a_hash_64 (bytes.map (caseValue true)) limit false ∧
      fnv1a_hash_32 bytes limit true =
        fnv1a_hash_32 (bytes.map (caseValue true)) limit false) ∧
    (∀ b, b &&& 0x20 = 0x20 → caseValue true b = b ^^^ 0x20) ∧
    (∀ b, ¬b &&& 0x20 = 0x20 → caseValue true b = b) := by
  have hlen : (bytes.map (caseValue true)).length = bytes.length :=
    List.length_map bytes (caseValue true)
  refine ⟨⟨?_, ?_⟩, ?_, ?_⟩
  · rw [hash64_eq_fold, hash64_eq_fold, hlen, ← List.map_take, List.foldl_map]
    exact (foldl_ext_mem _ _ _ (fun x _ a => (step64_false_caseValue a x).symm)
      _).symm
  · rw [hash32_eq_fold, hash32_eq_fold, hlen, ← List.map_take, List.foldl_map]
    exact (foldl_ext_mem _ _ _ (fun x _ a => (step32_false_caseValue a x).symm)
      _).symm
  · intro b hb
    simp only [caseValue, ASCII_CASE_MASK]
    rw [if_pos ⟨trivial, hb⟩]
  · intro b hb
    simp only [caseValue, ASCII_CASE_MASK]
    rw [if_neg (fun hc => hb hc.2)]

/-- Witness for C2 (amended) at concrete bytes. -/
theorem spec_c2_witness :
    caseValue true 0x61 = 0x41 ∧ caseValue true 0x41 = 0x41 := by
  constructor
  · have h := (spec_c2_amended [] none).2.1 0x61 (by decide)
    rw [h]
    decide
  · exact (spec_c2_amended [] none).2.2 0x41 (by decide)

/-- C5: for byte sequences of ASCII letters, hashing with case folding on
is insensitive to lowercasing the input first; in particular the spec's
concrete triple of 64-bit hashes agrees. -/
theorem spec_c5 (bytes : List Nat) (hb : ∀ b ∈ bytes, isAsciiLetter b) :
    (fnv1a_hash_64 bytes none true =
        fnv1a_hash_64 (bytes.map to_ascii_lowercase) none true ∧
      fnv1a_hash_32 bytes none true =
        fnv1a_hash_32 (bytes.map to_ascii_lowercase) none true) ∧
    (fnv1a_hash_64 [0x41, 0x42] none true = fnv1a_hash_64 [0x61, 0x42] none true ∧
      fnv1a_hash_64 [0x61, 0x42] none true =
        fnv1a_hash_64 [0x61, 0x62] none true) := by
  have hlen : (bytes.map to_ascii_lowercase).length = bytes.length :=
    List.length_map bytes to_ascii_lowercase
  refine ⟨⟨?_, ?_⟩, by decide, by decide⟩
  · rw [hash64_eq_fold, hash64_eq_fold, hlen, ← List.map_take, List.foldl_map]
    apply foldl_ext_mem
    intro x hx a
    unfold step64
    rw [caseValue_lower x (hb x (by simpa using List.mem_of_mem_take hx))]
  · rw [hash32_eq_fold, hash32_eq_fold, hlen, ← List.map_take, List.foldl_map]
    apply foldl_ext_mem
    intro x hx a
    unfold step32
    rw [caseValue_lower x (hb x (by simpa using List.mem_of_mem_take hx))]

/-- Witness for C5 at concrete bytes. -/
theorem spec_c5_witness :
    fnv1a_hash_64 [0x41, 0x62] none true =
      fnv1a_hash_64 [0x61, 0x62] none true :=
  (spec_c5 [0x41, 0x62] (by decide)).1.1

/-- C6: for every byte order, byte sequence and limit, the 16-bit variant
equals the XOR of the upper and lower 16-bit halves of the 32-bit hash
computed with case folding disabled. -/
theorem spec_c6 (le : Bool) (bytes : List Nat) (limit : Option Nat) :
    fnv1a_hash_16_xor le bytes limit =
      fnv1a_hash_32 bytes limit false / 2 ^ 16 ^^^
        fnv1a_hash_32 bytes limit false % 2 ^ 16 :=
  xor16_eq le bytes limit

/-- C7 counterexample: there is no byte sequence and limit at which the
little-endian and big-endian splits give different 16-bit results — XOR of
the two halves is commutative, so the claimed endianness dependence does
not exist. -/
theorem spec_c7_cex :
    ¬∃ (bytes : List Nat) (limit : Option Nat),
      fnv1a_hash_16_xor true bytes limit ≠ fnv1a_hash_16_xor false bytes limit := by
  rintro ⟨bytes, limit, hne⟩
  exact hne (by rw [xor16_eq, xor16_eq])

/-- C7 amended: the observable output of `fnv1a_hash_16_xor` does NOT
depend on the host's native byte order: for every byte sequence and limit
the little-endian split and the big-endian split XOR to the same value. -/
theorem spec_c7_amended (bytes : List Nat) (limit : Option Nat) :
    fnv1a_hash_16_xor true bytes limit = fnv1a_hash_16_xor false bytes limit := by
  rw [xor16_eq, xor16_eq]

/-- C9: the text entry points are exactly the byte-level hashes of the
UTF-8 encoding, with no limit and case folding off. -/
theorem spec_c9 (s : String) :
    fnv1a_hash_str_64 s = fnv1a_hash_64 (strBytes s) none false ∧
    fnv1a_hash_str_32 s = fnv1a_hash_32 (strBytes s) none false ∧
    ∀ le, fnv1a_hash_str_16_xor le s = fnv1a_hash_16_xor le (strBytes s) none :=
  ⟨rfl, rfl, fun _ => rfl⟩

/-- C10: totality and in-bounds access — the effective length never
exceeds the input length, every index the loop reads is within the input,
each hash is the fold over the effective prefix (so the loop terminates
after exactly `effLen` iterations), and the 16-bit result is a valid
16-bit value; no input fails. -/
theorem spec_c10 (bytes : List Nat) (limit : Option Nat) (c : Bool) :
    effLen bytes.length limit ≤ bytes.length ∧
    (∀ i, i < effLen bytes.length limit → i < bytes.length) ∧
    fnv1a_hash_64 bytes limit c =
      (bytes.take (effLen bytes.length limit)).foldl (step64 c)
        FNV_OFFSET_BASIS_64 ∧
    fnv1a_hash_32 bytes limit c =
      (bytes.take (effLen bytes.length limit)).foldl (step32 c)
        FNV_OFFSET_BASIS_32 ∧
    ∀ le, fnv1a_hash_16_xor le bytes limit < 2 ^ 16 := by
  refine ⟨effLen_le _ _, fun i hi => ?_, hash64_eq_fold bytes limit c,
    hash32_eq_fold bytes limit c, fun le => ?_⟩
  · exact lt_of_lt_of_le hi (effLen_le _ _)
  · rw [xor16_eq]
    have hd : fnv1a_hash_32 bytes limit false / 2 ^ 16 < 2 ^ 16 := by
      have := hash32_lt bytes limit false
      omega
    have hm : fnv1a_hash_32 bytes limit false % 2 ^ 16 < 2 ^ 16 := by
      omega
    exact Nat.xor_lt_two_pow hd hm

/-- Witness for C10 at concrete inputs. -/
theorem spec_c10_witness :
    effLen ([3, 4] : List Nat).length (some 1) ≤ ([3, 4] : List Nat).length ∧
    (0 : Nat) < ([3, 4] : List Nat).length :=
  ⟨(spec_c10 [3, 4] (some 1) true).1,
   (spec_c10 [3, 4] (some 1) true).2.1 0 (by decide)⟩

end Fnv1a
